import Mathlib

/-!
Verification of the `cheapqueryparser.lucparser` module: a shallow embedding
of its escaping / tokenizing / classification / unescaping / reassembly
pipeline over `List Char`, followed by theorems settling the spec claims.

Python strings are modelled as `List Char`.  The regular-expression
operations used by the source are embedded as explicit scanning functions
with the exact semantics of the patterns appearing in the source
(left-to-right non-overlapping substitution, lazy spans with look-behinds,
splitting on un-escaped colons).  The character class `\s` (and the
whitespace set of `str.split()`) is embedded as the six ASCII whitespace
characters recognised by Python's `re` module on ASCII input.
-/

namespace Lucparser

abbrev Str := List Char

/-- Python's `\s` character class (ASCII range). -/
def isPySpace (c : Char) : Bool :=
  c = ' ' || c = '\t' || c = '\n' || c = '\r' || c = '\x0b' || c = '\x0c'

/-! ### Left-to-right non-overlapping literal substitution

`replaceAll pat rep s` is `re.sub(re.escape(pat), rep, s)` / `str.replace`:
scan left to right, at each position replace the leftmost occurrence of
`pat` and continue after it.  Implemented structurally with a skip
counter so that it evaluates in the kernel. -/

def raGo (pat rep : Str) : Nat → Str → Str
  | _, [] => []
  | 0, c :: cs =>
    if List.isPrefixOf pat (c :: cs) then rep ++ raGo pat rep (pat.length - 1) cs
    else c :: raGo pat rep 0 cs
  | k+1, _ :: cs => raGo pat rep k cs

def replaceAll (pat rep s : Str) : Str := raGo pat rep 0 s

/-! ### The substitution tables (`_replacepairs` / `_revpairs`) -/

def sentMeta  : Str := "_&_METAESC_&_".toList
def sentQuot  : Str := "_&_QUOT_&_".toList
def sentSpace : Str := "_&_SPACE_&_".toList
def sentColon : Str := "_&_COLON_&_".toList
def sentPa    : Str := "_&_PA_&_".toList
def sentRens  : Str := "_&_RENS_&_".toList

/-- The pattern of `_replacepairs['metaesc']`: two literal backslashes. -/
def metaescPat : Str := ['\\', '\\']
/-- The pattern of `_replacepairs['quot']`: a backslash followed by `"`. -/
def quotPat : Str := ['\\', '"']

/-- `_replace_metaescape`. -/
def replaceMetaescape (q : Str) : Str := replaceAll metaescPat sentMeta q

/-- `_replace_esc_quotes`. -/
def replaceEscQuotes (q : Str) : Str := replaceAll quotPat sentQuot q

/-! ### Range spans (`re.findall` of the four range patterns)

Each range pattern in the source has the shape
`opener  .*?  closer` where the opener is a short literal (optionally with a
`(?<!\\)` look-behind) and the closer is one character (optionally with a
`(?<!\\)` look-behind); `.` does not match a newline. -/

structure SpanPat where
  op   : Str
  opLB : Bool
  cl   : Char
  clLB : Bool

/-- Lazy search for the span closer: the first position whose character is
the closer (passing its look-behind), scanning only non-newline characters.
Returns the interior and the remainder after the closer. -/
def findCloser (cl : Char) (clLB : Bool) (prev : Char) : Str → Option (Str × Str)
  | [] => none
  | c :: cs =>
    if c = cl ∧ (clLB = true → prev ≠ '\\') then some ([], cs)
    else if c = '\n' then none
    else
      match findCloser cl clLB c cs with
      | some (i, rest) => some (c :: i, rest)
      | none => none

/-- `re.findall` for a span pattern: leftmost, non-overlapping matches,
returned as the matched substrings.  `prev` is the character before the
current scan position (for the opener look-behind); a skip counter makes
the recursion structural. -/
def fsGo (sp : SpanPat) : Nat → Option Char → Str → List Str
  | _, _, [] => []
  | k+1, _, c :: cs => fsGo sp k (some c) cs
  | 0, prev, c :: cs =>
    if List.isPrefixOf sp.op (c :: cs) ∧ (sp.opLB = true → prev ≠ some '\\') then
      match findCloser sp.cl sp.clLB (sp.op.getLastD c) (List.drop sp.op.length (c :: cs)) with
      | some (i, _) =>
        (sp.op ++ i ++ [sp.cl]) :: fsGo sp ((sp.op ++ i ++ [sp.cl]).length - 1) (some c) cs
      | none => fsGo sp 0 (some c) cs
    else fsGo sp 0 (some c) cs

def findSpans (sp : SpanPat) (s : Str) : List Str := fsGo sp 0 none s

/-- `_replace_in_range`: for each pattern, find all matches in the current
string, rewrite each match with the repair substitution, and replace every
occurrence of the matched substring by its rewritten form. -/
def replaceInRange (pats : List SpanPat) (repair : Str → Str) (q : Str) : Str :=
  pats.foldl
    (fun q sp => (findSpans sp q).foldl (fun q m => replaceAll m (repair m) q) q) q

/-- Character-by-character substitution (for the `\s`, `:`, `\(`, `\)`
repairs applied inside matched spans). -/
def expandWith (f : Char → Str) : Str → Str
  | [] => []
  | c :: cs => f c ++ expandWith f cs

def subSpace (m : Str) : Str := expandWith (fun c => if isPySpace c then sentSpace else [c]) m
def subColon (m : Str) : Str := expandWith (fun c => if c = ':' then sentColon else [c]) m
def subPa    (m : Str) : Str := expandWith (fun c => if c = '(' then sentPa else [c]) m
def subRens  (m : Str) : Str := expandWith (fun c => if c = ')' then sentRens else [c]) m

/-- The `(?<!^):` repair of `_repspaces_in_subqueries`: replace every colon
except one at the very start of the (matched) string. -/
def subColonTail (m : Str) : Str :=
  match m with
  | [] => []
  | c :: rest => c :: subColon rest

/-- `(?<!\\)\{.*?(?<!\\)\}` -/
def rangeexPat : SpanPat := ⟨['\x7b'], true, '\x7d', true⟩
/-- `(?<!\\)\[.*?(?<!\\)\]` -/
def rangeincPat : SpanPat := ⟨['['], true, ']', true⟩
/-- `(?<!\\)\/.*?(?<!\\)\/` -/
def regexPat : SpanPat := ⟨['/'], true, '/', true⟩
/-- `".*?"` -/
def quotedPat : SpanPat := ⟨['"'], false, '"', false⟩
/-- `:\(.*?(?<!\\)\)` -/
def subqPat : SpanPat := ⟨[':', '('], false, ')', true⟩

def rangePats : List SpanPat := [rangeexPat, rangeincPat, regexPat, quotedPat]

/-- `_repspaces_in_ranges`. -/
def repRanges (q : Str) : Str :=
  [subSpace, subColon, subPa, subRens].foldl
    (fun q r => replaceInRange rangePats r q) q

/-- `_repspaces_in_subqueries`. -/
def repSubqueries (q : Str) : Str :=
  [subSpace, subColonTail].foldl (fun q r => replaceInRange [subqPat] r q) q

/-- `_addparenswhitespace`: surround every `(` and `)` with spaces. -/
def addParens (q : Str) : Str :=
  expandWith (fun c => if c = '(' then " ( ".toList else if c = ')' then " ) ".toList else [c]) q

/-! ### `_stripspaces`

`re.sub(r'\s*(?<!\\\\):\s*', ':', q)`.  Note that the raw-string pattern's
look-behind is `(?<!\\)` at the regex level written with four backslashes,
i.e. it tests that the two characters before the colon are NOT two literal
backslashes.  The scanner carries the two characters preceding the scan
position. -/

def wsCount : Str → Nat
  | [] => 0
  | c :: cs => if isPySpace c then wsCount cs + 1 else 0

/-- Attempt to match `\s*(?<!\\\\):\s*` at the start of `s`, where `p1, p2`
are the two characters preceding `s` in the whole string (`p2` adjacent).
Returns the consumed text and the remainder. -/
def stripMatch (p1 p2 : Option Char) (s : Str) : Option (Str × Str) :=
  let k := wsCount s
  match s.drop k with
  | [] => none
  | c :: rest =>
    if c = ':' then
      if k = 0 ∧ p1 = some '\\' ∧ p2 = some '\\' then none
      else some (s.take k ++ c :: rest.take (wsCount rest), rest.drop (wsCount rest))
    else none

def shift2 (pr : Option Char × Option Char) (c : Char) : Option Char × Option Char :=
  (pr.2, some c)

def ssGo : (Option Char × Option Char) → Nat → Str → Str
  | _, _, [] => []
  | pr, k+1, c :: cs => ssGo (shift2 pr c) k cs
  | pr, 0, c :: cs =>
    match stripMatch pr.1 pr.2 (c :: cs) with
    | some (cons, _) => ':' :: ssGo (shift2 pr c) (cons.length - 1) cs
    | none => c :: ssGo (shift2 pr c) 0 cs

/-- `_stripspaces`. -/
def stripspaces (q : Str) : Str := ssGo (none, none) 0 q

/-! ### Splitting -/

/-- Python `str.split()` (no separator): split on runs of whitespace,
discarding empty pieces. -/
def splitWsAux (cur : Str) : Str → List Str
  | [] => if cur = [] then [] else [cur.reverse]
  | c :: cs =>
    if isPySpace c then
      if cur = [] then splitWsAux [] cs else cur.reverse :: splitWsAux [] cs
    else splitWsAux (c :: cur) cs

def splitWs (s : Str) : List Str := splitWsAux [] s

/-- `re.split('(?<!\\):', t)`: split at every colon not immediately
preceded by a backslash; `prev` is the character before the scan
position. -/
def pySplitUC (prev : Option Char) : Str → List Str
  | [] => [[]]
  | c :: cs =>
    if c = ':' ∧ prev ≠ some '\\' then [] :: pySplitUC (some ':') cs
    else
      match pySplitUC (some c) cs with
      | [] => [[c]]
      | p :: ps => (c :: p) :: ps

/-! ### Classification (`_termdicts`) -/

/-- The token representation: a raw operator/structural string is kept
as-is (`lit`), a term becomes a field/term record (`term`), mirroring the
Python list mixing strings and dicts. -/
inductive Tok where
  | lit : Str → Tok
  | term : Option Str → Str → Tok
deriving DecidableEq, Repr

/-- The eight alternatives of the `nonterms` regex
`AND|OR|NOT|!|&&|\|\||\(|\)`. -/
def ops8 : List Str :=
  ["AND".toList, "OR".toList, "NOT".toList, "!".toList,
   "&&".toList, "||".toList, "(".toList, ")".toList]

/-- `re.match(nonterms, t)`: the regex is anchored at the start only, so a
token matches iff one of the eight alternatives is a prefix of it. -/
def nontermB (t : Str) : Bool := ops8.any (fun p => List.isPrefixOf p t)

/-- One step of the `_termdicts` loop on a single raw token.  `none` models
an uncaught `IndexError` from `parts[0]`/`parts[1]` (which in fact cannot
happen, see the claim on error handling). -/
def termdictOne? (t : Str) : Option Tok :=
  if nontermB t then some (Tok.lit t)
  else
    match pySplitUC none t with
    | [] => none
    | [p] => some (Tok.term none p)
    | p0 :: p1 :: _ => some (Tok.term (some p0) p1)

/-- `_termdicts` applied to a split query. -/
def termdicts? (ts : List Str) : Option (List Tok) := ts.mapM termdictOne?

/-! ### Unescaper (`_unreplace`) -/

/-- `_revpairs` in iteration order, with the replacement strings as
processed by `re.sub`'s template expansion: `'\\\\'` produces a single
backslash and `'\\"'` produces a backslash followed by a quote. -/
def revPairs : List (Str × Str) :=
  [(sentMeta, ['\\']), (sentQuot, ['\\', '"']), (sentSpace, [' ']),
   (sentColon, [':']), (sentPa, ['(']), (sentRens, [')'])]

def unreplaceVal (v : Str) : Str :=
  revPairs.foldl (fun v pr => replaceAll pr.1 pr.2 v) v

/-- `_unreplace` on a single token: only truthy (non-`None`, non-empty)
`field`/`term` values of term dicts are rewritten. -/
def unreplaceTok : Tok → Tok
  | Tok.lit s => Tok.lit s
  | Tok.term f t =>
    Tok.term (f.map fun v => if v = [] then v else unreplaceVal v)
      (if t = [] then t else unreplaceVal t)

def unreplaceToks (ts : List Tok) : List Tok := ts.map unreplaceTok

/-! ### `_parse` / `deparse` / `assemble` -/

/-- The string-rewriting stages of `_parse`, in source order. -/
def parsePipeline (q : Str) : Str :=
  repSubqueries (stripspaces (addParens (repRanges (replaceEscQuotes (replaceMetaescape q)))))

/-- `_parse`. -/
def parseQ? (q : Str) : Option (List Tok) := termdicts? (splitWs (parsePipeline q))

/-- `deparse`. -/
def deparse? (q : Str) : Option (List Tok) := (parseQ? q).map unreplaceToks

/-- `' '.join`. -/
def joinSp : List Str → Str
  | [] => []
  | [p] => p
  | p :: ps => p ++ ' ' :: joinSp ps

/-- The string emitted by `assemble` for one token: a raw string verbatim;
for a dict, `field + ' : ' + term` when the field is truthy, else the term
alone. -/
def renderTok : Tok → Str
  | Tok.lit s => s
  | Tok.term f t =>
    (match f with
     | none => []
     | some v => if v = [] then [] else v ++ [' ', ':', ' ']) ++ t

/-- `assemble`. -/
def assemble (ts : List Tok) : Str := joinSp (ts.map renderTok)

/-- The `assemble` loop with the token list threaded through it as explicit
state: each iteration reads the current token (via `renderTok`, which is
the only access the loop body makes) and passes the token on unchanged;
the second component is the list as the loop leaves it. -/
def assembleLoop : List Tok → List Str × List Tok
  | [] => ([], [])
  | td :: rest =>
    let piece := renderTok td
    let (ql, rest') := assembleLoop rest
    (piece :: ql, td :: rest')

/-! ### Specification-side descriptions

Independent definitions following the spec's wording, used to state the
claims about the classifier's colon splitting. -/

/-- The text before the first unescaped colon (one not immediately
preceded by a backslash); `prev` is the character preceding the scan. -/
def ucBefore (prev : Option Char) : Str → Str
  | [] => []
  | c :: cs => if c = ':' ∧ prev ≠ some '\\' then [] else c :: ucBefore (some c) cs

/-- The text after the first unescaped colon (everything, further colons
included); empty when there is none. -/
def ucAfter (prev : Option Char) : Str → Str
  | [] => []
  | c :: cs => if c = ':' ∧ prev ≠ some '\\' then cs else ucAfter (some c) cs

/-- Whether the string contains an unescaped colon. -/
def hasUC (prev : Option Char) : Str → Bool
  | [] => false
  | c :: cs => if c = ':' ∧ prev ≠ some '\\' then true else hasUC (some c) cs

/-- The text strictly between the first unescaped colon and the following
unescaped colon (or the end of the token). -/
def ucSecond (t : Str) : Str :=
  if hasUC (some ':') (ucAfter none t) then ucBefore (some ':') (ucAfter none t)
  else ucAfter none t

/-- The character preceding the scan position after consuming `u`. -/
def shiftP (prev : Option Char) (u : Str) : Option Char :=
  u.foldl (fun _ c => some c) prev

/-! ### The simple-token class

Token sequences whose reassembled string contains none of the characters
that the escaping, range and grouping stages act on; on this class the
`assemble`/`deparse` round trip is exact. -/

/-- A character that passes unchanged through every pipeline stage:
printable ASCII, not whitespace, and none of the colon / parenthesis /
quote / range-delimiter / backslash / sentinel-alphabet characters. -/
def plainChar (c : Char) : Bool :=
  (33 ≤ c.toNat && c.toNat ≤ 126) &&
  !(c = ':' || c = '(' || c = ')' || c = '"' || c = '\x7b' || c = '\x7d' ||
    c = '[' || c = ']' || c = '/' || c = '\\' || c = '&')

/-- The non-parenthesis operator literals. -/
def opStrings : List Str :=
  ["AND".toList, "OR".toList, "NOT".toList, "!".toList, "&&".toList, "||".toList]

def simpleTok : Tok → Bool
  | Tok.lit l => decide (l ∈ opStrings)
  | Tok.term none t => decide (t ≠ []) && t.all plainChar && !(nontermB t)
  | Tok.term (some v) t =>
    decide (v ≠ []) && v.all plainChar && decide (t ≠ []) && t.all plainChar &&
      !(nontermB (v ++ ':' :: t))

def simpleToks (ts : List Tok) : Bool := ts.all simpleTok

/-- The rendering of a token after `_stripspaces` has normalised the
colon spacing that `assemble` introduced. -/
def renderStripped : Tok → Str
  | Tok.lit l => l
  | Tok.term none t => t
  | Tok.term (some v) t => if v = [] then t else v ++ ':' :: t

/-! ## Substring occurrence -/

/-- `pat` occurs as a contiguous substring of `s`. -/
def HasSub (pat s : Str) : Prop := ∃ u v, s = u ++ pat ++ v

theorem hasSub_self (pat : Str) : HasSub pat pat := ⟨[], [], by simp⟩

theorem hasSub_cons {pat s : Str} (c : Char) (h : HasSub pat s) : HasSub pat (c :: s) := by
  obtain ⟨u, v, rfl⟩ := h
  exact ⟨c :: u, v, rfl⟩

theorem hasSub_cons_elim {pat s : Str} {c : Char} (h : HasSub pat (c :: s)) :
    (∃ v, c :: s = pat ++ v) ∨ HasSub pat s := by
  obtain ⟨u, v, hv⟩ := h
  cases u with
  | nil => exact Or.inl ⟨v, by rw [List.nil_append] at hv; exact hv⟩
  | cons a u' =>
    rw [List.cons_append, List.cons_append] at hv
    exact Or.inr ⟨u', v, by injection hv with _ h2⟩

theorem hasSub_mem {pat s : Str} {a : Char} (h : HasSub pat s) (ha : a ∈ pat) : a ∈ s := by
  obtain ⟨u, v, rfl⟩ := h
  simp [ha]

theorem hasSub_append_left {pat s : Str} (u : Str) (h : HasSub pat s) : HasSub pat (u ++ s) := by
  obtain ⟨x, y, rfl⟩ := h
  exact ⟨u ++ x, y, by simp⟩

theorem hasSub_drop {pat s : Str} {k : Nat} (h : HasSub pat (s.drop k)) : HasSub pat s := by
  have := hasSub_append_left (s.take k) h
  rwa [List.take_append_drop] at this

theorem hasSub_append_elim {pat : Str} (hpat : pat ≠ []) :
    ∀ {x y : Str}, HasSub pat (x ++ y) → (∃ a, a ∈ x ∧ a ∈ pat) ∨ HasSub pat y := by
  intro x
  induction x with
  | nil => intro y h; exact Or.inr (by simpa using h)
  | cons c x' ih =>
    intro y h
    rw [List.cons_append] at h
    rcases hasSub_cons_elim h with ⟨v, hv⟩ | h'
    · match pat, hpat with
      | p :: ps, _ =>
        rw [List.cons_append] at hv
        injection hv with h1 _
        exact Or.inl ⟨c, List.mem_cons_self c x', h1 ▸ List.mem_cons_self p ps⟩
    · rcases ih h' with ⟨a, ha1, ha2⟩ | h''
      · exact Or.inl ⟨a, List.mem_cons_of_mem c ha1, ha2⟩
      · exact Or.inr h''

/-- `List.isPrefixOf` in explicit form. -/
theorem pfx_iff : ∀ (pat s : Str), List.isPrefixOf pat s = true ↔ ∃ v, s = pat ++ v := by
  intro pat
  induction pat with
  | nil => intro s; simp only [List.isPrefixOf, List.nil_append, true_iff]; exact ⟨s, rfl⟩
  | cons p ps ih =>
    intro s
    cases s with
    | nil => simp [List.isPrefixOf]
    | cons c cs =>
      simp only [List.isPrefixOf, List.cons_append, Bool.and_eq_true, beq_iff_eq, ih cs]
      constructor
      · rintro ⟨rfl, v, rfl⟩; exact ⟨v, rfl⟩
      · rintro ⟨v, hv⟩; injection hv with h1 h2; exact ⟨h1.symm, v, h2⟩

/-! ## `replaceAll` theory -/

theorem raGo_skip (pat rep : Str) : ∀ (s : Str) (k : Nat),
    raGo pat rep k s = raGo pat rep 0 (s.drop k) := by
  intro s
  induction s with
  | nil => intro k; cases k <;> simp [raGo]
  | cons c cs ih =>
    intro k
    cases k with
    | zero => simp
    | succ k => rw [List.drop_succ_cons, ← ih k]; rfl

theorem replaceAll_nil (pat rep : Str) : replaceAll pat rep [] = [] := rfl

theorem replaceAll_cons (pat rep : Str) (c : Char) (cs : Str) :
    replaceAll pat rep (c :: cs) =
      if List.isPrefixOf pat (c :: cs) then
        rep ++ replaceAll pat rep (cs.drop (pat.length - 1))
      else c :: replaceAll pat rep cs := by
  show raGo pat rep 0 (c :: cs) = _
  rw [raGo, raGo_skip pat rep cs (pat.length - 1)]
  rfl

theorem replaceAll_id {pat : Str} (rep : Str) :
    ∀ (s : Str), ¬ HasSub pat s → replaceAll pat rep s = s := by
  intro s
  induction s with
  | nil => intro _; rfl
  | cons c cs ih =>
    intro h
    rw [replaceAll_cons]
    have hp : ¬ List.isPrefixOf pat (c :: cs) = true := by
      intro hp
      obtain ⟨v, hv⟩ := (pfx_iff pat (c :: cs)).1 hp
      exact h ⟨[], v, by simpa using hv⟩
    rw [if_neg hp, ih (fun hs => h (hasSub_cons c hs))]

theorem replaceAll_ne_nil {pat rep : Str} (hrep : rep ≠ []) :
    ∀ {s : Str}, s ≠ [] → replaceAll pat rep s ≠ [] := by
  intro s hs
  match s, hs with
  | c :: cs, _ =>
    rw [replaceAll_cons]
    by_cases hp : List.isPrefixOf pat (c :: cs) = true
    · simp [hp, hrep]
    · simp [hp]

/-- If the output of `replaceAll` starts with a block `q` that shares no
character with the replacement, then the input started with `q` too. -/
theorem ra_pfx_out {pat rep : Str} (hrep : rep ≠ []) :
    ∀ (n : Nat) (s q : Str), s.length ≤ n → q ≠ [] → (∀ a ∈ rep, a ∉ q) →
      (∃ w, replaceAll pat rep s = q ++ w) → ∃ w, s = q ++ w := by
  intro n
  induction n with
  | zero =>
    intro s q hs hq _ hw
    match s, hs with
    | [], _ =>
      obtain ⟨w, hw⟩ := hw
      rw [replaceAll_nil] at hw
      match q, hq with
      | a :: q', _ => simp at hw
  | succ n ih =>
    intro s q hs hq hd hw
    match s with
    | [] =>
      obtain ⟨w, hw⟩ := hw
      rw [replaceAll_nil] at hw
      match q, hq with
      | a :: q', _ => simp at hw
    | c :: cs =>
      obtain ⟨w, hw⟩ := hw
      rw [replaceAll_cons] at hw
      by_cases hp : List.isPrefixOf pat (c :: cs) = true
      · rw [if_pos hp] at hw
        match rep, hrep, q, hq with
        | r :: rs, _, a :: q', _ =>
          rw [List.cons_append, List.cons_append] at hw
          injection hw with h1 _
          exact absurd (by rw [h1]; exact List.mem_cons_self a q')
            (hd r (List.mem_cons_self r rs))
      · rw [if_neg hp] at hw
        match q, hq with
        | a :: q', _ =>
          rw [List.cons_append] at hw
          injection hw with h1 h2
          by_cases hq' : q' = []
          · subst hq'; exact ⟨cs, by simp [h1]⟩
          · have hd' : ∀ x ∈ rep, x ∉ q' :=
              fun x hx hmem => hd x hx (List.mem_cons_of_mem a hmem)
            have hlen : cs.length ≤ n := by simp at hs; omega
            obtain ⟨w', hw'⟩ := ih cs q' hlen hq' hd' ⟨w, h2⟩
            exact ⟨w', by rw [List.cons_append, h1, hw']⟩

/-- An occurrence of `q` in the output of `replaceAll` that shares no
character with the replacement comes from an occurrence in the input. -/
theorem ra_sub_out {pat rep : Str} (hrep : rep ≠ []) :
    ∀ (n : Nat) (s q : Str), s.length ≤ n → q ≠ [] → (∀ a ∈ rep, a ∉ q) →
      HasSub q (replaceAll pat rep s) → HasSub q s := by
  intro n
  induction n with
  | zero =>
    intro s q hs hq _ h
    match s, hs with
    | [], _ =>
      rw [replaceAll_nil] at h
      obtain ⟨u, v, huv⟩ := h
      match q, hq with
      | a :: q', _ => exact absurd huv (by simp)
  | succ n ih =>
    intro s q hs hq hd h
    match s with
    | [] =>
      rw [replaceAll_nil] at h
      obtain ⟨u, v, huv⟩ := h
      match q, hq with
      | a :: q', _ => exact absurd huv (by simp)
    | c :: cs =>
      rw [replaceAll_cons] at h
      by_cases hp : List.isPrefixOf pat (c :: cs) = true
      · rw [if_pos hp] at h
        rcases hasSub_append_elim hq h with ⟨a, ha1, ha2⟩ | h'
        · exact absurd ha2 (hd a ha1)
        · have hlen : (cs.drop (pat.length - 1)).length ≤ n := by
            simp at hs ⊢; omega
          exact hasSub_cons c (hasSub_drop (ih _ q hlen hq hd h'))
      · rw [if_neg hp] at h
        rcases hasSub_cons_elim h with ⟨v, hv⟩ | h'
        · match q, hq with
          | a :: q', _ =>
            rw [List.cons_append] at hv
            injection hv with h1 h2
            by_cases hq' : q' = []
            · subst hq'; exact ⟨[], cs, by simp [h1]⟩
            · have hd' : ∀ x ∈ rep, x ∉ q' :=
                fun x hx hmem => hd x hx (List.mem_cons_of_mem a hmem)
              have hlen : cs.length ≤ n := by simp at hs; omega
              obtain ⟨w', hw'⟩ := ra_pfx_out hrep n cs q' hlen hq' hd' ⟨v, h2⟩
              exact ⟨[], w', by simp [h1, hw']⟩
        · have hlen : cs.length ≤ n := by simp at hs; omega
          exact hasSub_cons c (ih cs q hlen hq hd h')

/-- After `replaceAll pat rep`, the pattern no longer occurs, provided the
replacement shares no character with the pattern. -/
theorem ra_pat_gone {p : Char} {ps rep : Str} (hrep : rep ≠ [])
    (hd : ∀ a ∈ rep, a ∉ p :: ps) :
    ∀ (n : Nat) (s : Str), s.length ≤ n →
      ¬ HasSub (p :: ps) (replaceAll (p :: ps) rep s) := by
  intro n
  induction n with
  | zero =>
    intro s hs h
    match s, hs with
    | [], _ =>
      rw [replaceAll_nil] at h
      obtain ⟨u, v, huv⟩ := h
      exact absurd huv (by simp)
  | succ n ih =>
    intro s hs h
    match s with
    | [] =>
      rw [replaceAll_nil] at h
      obtain ⟨u, v, huv⟩ := h
      exact absurd huv (by simp)
    | c :: cs =>
      rw [replaceAll_cons] at h
      by_cases hp : List.isPrefixOf (p :: ps) (c :: cs) = true
      · rw [if_pos hp] at h
        rcases hasSub_append_elim (List.cons_ne_nil p ps) h with ⟨a, ha1, ha2⟩ | h'
        · exact absurd ha2 (hd a ha1)
        · have hlen : (cs.drop ((p :: ps).length - 1)).length ≤ n := by
            simp at hs ⊢; omega
          exact ih _ hlen h'
      · rw [if_neg hp] at h
        rcases hasSub_cons_elim h with ⟨v, hv⟩ | h'
        · rw [List.cons_append] at hv
          injection hv with h1 h2
          by_cases hps : ps = []
          · subst hps
            exact hp ((pfx_iff _ _).2 ⟨cs, by simp [h1]⟩)
          · have hd' : ∀ x ∈ rep, x ∉ ps :=
              fun x hx hmem => hd x hx (List.mem_cons_of_mem p hmem)
            have hlen : cs.length ≤ n := by simp at hs; omega
            obtain ⟨w', hw'⟩ := ra_pfx_out hrep n cs ps hlen hps hd' ⟨v, h2⟩
            exact hp ((pfx_iff _ _).2 ⟨w', by simp [h1, hw']⟩)
        · have hlen : cs.length ≤ n := by simp at hs; omega
          exact ih cs hlen h'

theorem replaceAll_pat_gone {pat rep : Str} (hpat : pat ≠ []) (hrep : rep ≠ [])
    (hd : ∀ a ∈ rep, a ∉ pat) (s : Str) : ¬ HasSub pat (replaceAll pat rep s) := by
  match pat, hpat with
  | p :: ps, _ => exact ra_pat_gone hrep hd s.length s (Nat.le_refl _)

theorem replaceAll_sub_out {pat rep q : Str} (hrep : rep ≠ []) (hq : q ≠ [])
    (hd : ∀ a ∈ rep, a ∉ q) {s : Str} (h : HasSub q (replaceAll pat rep s)) :
    HasSub q s :=
  ra_sub_out hrep s.length s q (Nat.le_refl _) hq hd h

/-! ## Unescaper theory -/

theorem unreplaceVal_stages (v : Str) :
    unreplaceVal v =
      replaceAll sentRens [')'] (replaceAll sentPa ['('] (replaceAll sentColon [':']
        (replaceAll sentSpace [' '] (replaceAll sentQuot ['\\', '"']
          (replaceAll sentMeta ['\\'] v))))) := rfl

/-- No sentinel marker survives the Unescaper: the six reverse
substitutions each eliminate their own marker, and the replacement
characters never recreate any marker. -/
theorem no_sent_unreplaceVal :
    ∀ pr ∈ revPairs, ∀ v : Str, ¬ HasSub pr.1 (unreplaceVal v) := by
  intro pr hpr v h
  rw [unreplaceVal_stages] at h
  simp only [revPairs, List.mem_cons, List.not_mem_nil, or_false] at hpr
  rcases hpr with rfl | rfl | rfl | rfl | rfl | rfl
  · -- metaesc sentinel: killed at stage 1, preserved through stages 2-6
    have h5 := replaceAll_sub_out (by decide) (by decide) (by decide) h
    have h4 := replaceAll_sub_out (by decide) (by decide) (by decide) h5
    have h3 := replaceAll_sub_out (by decide) (by decide) (by decide) h4
    have h2 := replaceAll_sub_out (by decide) (by decide) (by decide) h3
    have h1 := replaceAll_sub_out (by decide) (by decide) (by decide) h2
    exact replaceAll_pat_gone (by decide) (by decide) (by decide) v h1
  · have h5 := replaceAll_sub_out (by decide) (by decide) (by decide) h
    have h4 := replaceAll_sub_out (by decide) (by decide) (by decide) h5
    have h3 := replaceAll_sub_out (by decide) (by decide) (by decide) h4
    have h2 := replaceAll_sub_out (by decide) (by decide) (by decide) h3
    exact replaceAll_pat_gone (by decide) (by decide) (by decide) _ h2
  · have h5 := replaceAll_sub_out (by decide) (by decide) (by decide) h
    have h4 := replaceAll_sub_out (by decide) (by decide) (by decide) h5
    have h3 := replaceAll_sub_out (by decide) (by decide) (by decide) h4
    exact replaceAll_pat_gone (by decide) (by decide) (by decide) _ h3
  · have h5 := replaceAll_sub_out (by decide) (by decide) (by decide) h
    have h4 := replaceAll_sub_out (by decide) (by decide) (by decide) h5
    exact replaceAll_pat_gone (by decide) (by decide) (by decide) _ h4
  · have h5 := replaceAll_sub_out (by decide) (by decide) (by decide) h
    exact replaceAll_pat_gone (by decide) (by decide) (by decide) _ h5
  · exact replaceAll_pat_gone (by decide) (by decide) (by decide) _ h

theorem unreplaceVal_idem (v : Str) :
    unreplaceVal (unreplaceVal v) = unreplaceVal v := by
  have h := fun pr hpr => no_sent_unreplaceVal pr hpr v
  have e1 : replaceAll sentMeta ['\\'] (unreplaceVal v) = unreplaceVal v :=
    replaceAll_id _ _ (h (sentMeta, ['\\']) (by simp [revPairs]))
  have e2 : replaceAll sentQuot ['\\', '"'] (unreplaceVal v) = unreplaceVal v :=
    replaceAll_id _ _ (h (sentQuot, ['\\', '"']) (by simp [revPairs]))
  have e3 : replaceAll sentSpace [' '] (unreplaceVal v) = unreplaceVal v :=
    replaceAll_id _ _ (h (sentSpace, [' ']) (by simp [revPairs]))
  have e4 : replaceAll sentColon [':'] (unreplaceVal v) = unreplaceVal v :=
    replaceAll_id _ _ (h (sentColon, [':']) (by simp [revPairs]))
  have e5 : replaceAll sentPa ['('] (unreplaceVal v) = unreplaceVal v :=
    replaceAll_id _ _ (h (sentPa, ['(']) (by simp [revPairs]))
  have e6 : replaceAll sentRens [')'] (unreplaceVal v) = unreplaceVal v :=
    replaceAll_id _ _ (h (sentRens, [')']) (by simp [revPairs]))
  rw [unreplaceVal_stages (unreplaceVal v), e1, e2, e3, e4, e5, e6]

theorem unreplaceVal_ne_nil {v : Str} (hv : v ≠ []) : unreplaceVal v ≠ [] := by
  rw [unreplaceVal_stages]
  exact replaceAll_ne_nil (by decide)
    (replaceAll_ne_nil (by decide) (replaceAll_ne_nil (by decide)
      (replaceAll_ne_nil (by decide) (replaceAll_ne_nil (by decide)
        (replaceAll_ne_nil (by decide) hv)))))

/-! ## Splitting lemmas -/

theorem pySplitUC_ne_nil (prev : Option Char) (s : Str) : pySplitUC prev s ≠ [] := by
  induction s generalizing prev with
  | nil => simp [pySplitUC]
  | cons c cs ih =>
    simp only [pySplitUC]
    split
    · simp
    · split
      · simp
      · simp

/-- `re.split('(?<!\\):', t)` characterised by the first unescaped colon. -/
theorem pySplitUC_eq (prev : Option Char) (t : Str) :
    pySplitUC prev t =
      if hasUC prev t then ucBefore prev t :: pySplitUC (some ':') (ucAfter prev t)
      else [t] := by
  induction t generalizing prev with
  | nil => simp [pySplitUC, hasUC]
  | cons c cs ih =>
    by_cases h : c = ':' ∧ prev ≠ some '\\'
    · simp [pySplitUC, hasUC, ucBefore, ucAfter, h]
    · simp only [pySplitUC, hasUC, ucBefore, ucAfter, if_neg h]
      rw [ih (some c)]
      by_cases h2 : hasUC (some c) cs = true
      · simp [h2]
      · simp [h2]

theorem termdictOne?_isSome (t : Str) : (termdictOne? t).isSome = true := by
  simp only [termdictOne?]
  by_cases h : nontermB t = true
  · simp [h]
  · simp only [if_neg h]
    match hm : pySplitUC none t with
    | [] => exact absurd hm (pySplitUC_ne_nil none t)
    | [p] => simp
    | p0 :: p1 :: ps => simp

theorem splitWsAux_mem_ne_nil :
    ∀ (s cur : Str), ∀ p ∈ splitWsAux cur s, p ≠ [] := by
  intro s
  induction s with
  | nil =>
    intro cur p hp
    simp only [splitWsAux] at hp
    split at hp
    · simp at hp
    · next hcur =>
      simp only [List.mem_singleton] at hp
      subst hp
      simpa using hcur
  | cons c cs ih =>
    intro cur p hp
    simp only [splitWsAux] at hp
    split at hp
    · split at hp
      · exact ih [] p hp
      · next hcur =>
        rcases List.mem_cons.mp hp with rfl | hp'
        · simpa using hcur
        · exact ih [] p hp'
    · exact ih (c :: cur) p hp

theorem splitWs_mem_ne_nil (s : Str) : ∀ p ∈ splitWs s, p ≠ [] :=
  splitWsAux_mem_ne_nil s []

/-! ## `mapM` over `Option` -/

theorem mapM_isSome {α β : Type} (f : α → Option β) :
    ∀ (xs : List α), (∀ x ∈ xs, (f x).isSome = true) → (xs.mapM f).isSome = true := by
  intro xs
  induction xs with
  | nil => intro _; rfl
  | cons x xs ih =>
    intro h
    rw [List.mapM_cons]
    have hx := h x (List.mem_cons_self x xs)
    match hfx : f x with
    | none => rw [hfx] at hx; simp at hx
    | some b =>
      have hxs := ih (fun y hy => h y (List.mem_cons_of_mem x hy))
      match hm : xs.mapM f with
      | none => rw [hm] at hxs; simp at hxs
      | some bs => simp [hfx, hm]

theorem mapM_mem {α β : Type} (f : α → Option β) :
    ∀ (xs : List α) (ys : List β), xs.mapM f = some ys →
      ∀ b ∈ ys, ∃ x ∈ xs, f x = some b := by
  intro xs
  induction xs with
  | nil =>
    intro ys h b hb
    simp only [List.mapM_nil, Option.pure_def, Option.some.injEq] at h
    subst h
    simp at hb
  | cons x xs ih =>
    intro ys h b hb
    rw [List.mapM_cons] at h
    match hfx : f x, hm : xs.mapM f with
    | none, _ => rw [hfx] at h; simp at h
    | some y, none => rw [hfx, hm] at h; simp at h
    | some y, some ys' =>
      rw [hfx, hm] at h
      simp at h
      subst h
      rcases List.mem_cons.mp hb with rfl | hb'
      · exact ⟨x, List.mem_cons_self x xs, hfx⟩
      · obtain ⟨x', hx', hfx'⟩ := ih ys' hm b hb'
        exact ⟨x', List.mem_cons_of_mem x hx', hfx'⟩

theorem unreplaceTok_idem (tok : Tok) :
    unreplaceTok (unreplaceTok tok) = unreplaceTok tok := by
  have hval : ∀ v : Str,
      (if (if v = [] then v else unreplaceVal v) = [] then (if v = [] then v else unreplaceVal v)
       else unreplaceVal (if v = [] then v else unreplaceVal v)) =
      (if v = [] then v else unreplaceVal v) := by
    intro v
    by_cases hv : v = []
    · simp [hv]
    · rw [if_neg hv, if_neg (unreplaceVal_ne_nil hv), unreplaceVal_idem]
  cases tok with
  | lit s => rfl
  | term f t =>
    simp only [unreplaceTok]
    cases f with
    | none => simp [hval t]
    | some v => simp [hval t, hval v]

theorem hasSub_nil {pat : Str} (h : HasSub pat []) : pat = [] := by
  obtain ⟨u, v, huv⟩ := h
  have := congrArg List.length huv
  simp at this
  exact List.eq_nil_of_length_eq_zero (by omega)

theorem revPairs_fst_ne_nil : ∀ pr ∈ revPairs, pr.1 ≠ [] := by decide

/-! ## Round-trip machinery: character facts -/

theorem plainChar_ne_of {a b : Char} (h : plainChar a = true)
    (hb : plainChar b = false) : a ≠ b := by
  intro e
  rw [e, hb] at h
  exact Bool.false_ne_true h

theorem plainChar_not_ws {a : Char} (h : plainChar a = true) : isPySpace a = false := by
  have h1 : 33 ≤ a.toNat := by
    simp only [plainChar, Bool.and_eq_true, decide_eq_true_eq] at h
    exact h.1.1
  by_contra hws
  rw [Bool.not_eq_false] at hws
  simp only [isPySpace, Bool.or_eq_true, decide_eq_true_eq] at hws
  rcases hws with ((((rfl | rfl) | rfl) | rfl) | rfl) | rfl <;> exact absurd h1 (by decide)

theorem opStrings_chars :
    ∀ l ∈ opStrings, ∀ a ∈ l,
      isPySpace a = false ∧ a ≠ ':' ∧
        a ∉ (['\\', '"', '\x7b', '[', '/', '(', ')'] : List Char) := by decide

theorem opStrings_nonterm : ∀ l ∈ opStrings, nontermB l = true := by decide

theorem opStrings_head :
    ∀ l ∈ opStrings, l ≠ [] ∧ isPySpace (l.headD ' ') = false ∧ l.headD ' ' ≠ ':' := by
  decide

/-! ## Round-trip machinery: `joinSp` -/

theorem joinSp_cons (p : Str) (ps : List Str) :
    joinSp (p :: ps) = p ++ (if ps.isEmpty then [] else ' ' :: joinSp ps) := by
  match ps with
  | [] => simp [joinSp]
  | q :: ps' => simp [joinSp]

theorem joinSp_mem : ∀ (ps : List Str) (a : Char),
    a ∈ joinSp ps → a = ' ' ∨ ∃ p ∈ ps, a ∈ p := by
  intro ps
  induction ps with
  | nil => intro a ha; simp [joinSp] at ha
  | cons p ps ih =>
    intro a ha
    rw [joinSp_cons] at ha
    rcases List.mem_append.mp ha with h1 | h2
    · exact Or.inr ⟨p, List.mem_cons_self p ps, h1⟩
    · match ps with
      | [] => simp at h2
      | q :: ps' =>
        simp only [List.isEmpty_cons, if_false, Bool.false_eq_true] at h2
        rcases List.mem_cons.mp h2 with rfl | h3
        · exact Or.inl rfl
        · rcases ih a h3 with h | ⟨r, hr, har⟩
          · exact Or.inl h
          · exact Or.inr ⟨r, List.mem_cons_of_mem _ hr, har⟩

/-! ## Round-trip machinery: identity stages -/

theorem fsGo_nil (sp : SpanPat) :
    ∀ (s : Str), ¬ HasSub sp.op s → ∀ (k : Nat) (prev : Option Char),
      fsGo sp k prev s = [] := by
  intro s
  induction s with
  | nil => intro _ k prev; cases k <;> rfl
  | cons c cs ih =>
    intro h k prev
    cases k with
    | succ k => exact ih (fun hs => h (hasSub_cons c hs)) k (some c)
    | zero =>
      have hp : ¬ (List.isPrefixOf sp.op (c :: cs) = true ∧
          (sp.opLB = true → prev ≠ some '\\')) := by
        rintro ⟨hpre, _⟩
        obtain ⟨v, hv⟩ := (pfx_iff _ _).1 hpre
        exact h ⟨[], v, by simpa using hv⟩
      simp only [fsGo, if_neg hp]
      exact ih (fun hs => h (hasSub_cons c hs)) 0 (some c)

theorem findSpans_nil {sp : SpanPat} {s : Str} (h : ¬ HasSub sp.op s) :
    findSpans sp s = [] :=
  fsGo_nil sp s h 0 none

theorem replaceInRange_nil (pats : List SpanPat) (repair : Str → Str) (q : Str)
    (h : ∀ sp ∈ pats, findSpans sp q = []) : replaceInRange pats repair q = q := by
  induction pats with
  | nil => rfl
  | cons sp pats ih =>
    show List.foldl _ ((findSpans sp q).foldl _ q) pats = q
    rw [h sp (List.mem_cons_self sp pats)]
    exact ih (fun sp' hsp' => h sp' (List.mem_cons_of_mem sp hsp'))

theorem repRanges_id {s : Str}
    (h : ∀ a ∈ s, a ∉ (['\\', '"', '\x7b', '[', '/', '(', ')'] : List Char)) :
    repRanges s = s := by
  have hall : ∀ sp ∈ rangePats, findSpans sp s = [] := by
    intro sp hsp
    simp only [rangePats, List.mem_cons, List.not_mem_nil, or_false] at hsp
    rcases hsp with rfl | rfl | rfl | rfl
    · exact findSpans_nil (fun hsub => h '\x7b' (hasSub_mem hsub (by decide)) (by decide))
    · exact findSpans_nil (fun hsub => h '[' (hasSub_mem hsub (by decide)) (by decide))
    · exact findSpans_nil (fun hsub => h '/' (hasSub_mem hsub (by decide)) (by decide))
    · exact findSpans_nil (fun hsub => h '"' (hasSub_mem hsub (by decide)) (by decide))
  simp only [repRanges, List.foldl]
  rw [replaceInRange_nil _ _ _ hall, replaceInRange_nil _ _ _ hall,
    replaceInRange_nil _ _ _ hall, replaceInRange_nil _ _ _ hall]

theorem repSubqueries_id {q : Str} (h : '(' ∉ q) : repSubqueries q = q := by
  have hf : findSpans subqPat q = [] :=
    findSpans_nil (fun hsub => h (hasSub_mem hsub (by decide)))
  have hall : ∀ sp ∈ [subqPat], findSpans sp q = [] := by
    intro sp hsp
    simp only [List.mem_singleton] at hsp
    rw [hsp]
    exact hf
  simp only [repSubqueries, List.foldl]
  rw [replaceInRange_nil _ _ _ hall, replaceInRange_nil _ _ _ hall]

theorem addParens_id {s : Str} (h : ∀ a ∈ s, a ≠ '(' ∧ a ≠ ')') : addParens s = s := by
  induction s with
  | nil => rfl
  | cons c cs ih =>
    have hc := h c (List.mem_cons_self c cs)
    show (if c = '(' then " ( ".toList else if c = ')' then " ) ".toList else [c]) ++
      expandWith _ cs = c :: cs
    rw [if_neg hc.1, if_neg hc.2]
    have := ih (fun a ha => h a (List.mem_cons_of_mem c ha))
    simp only [List.singleton_append, List.cons.injEq, true_and]
    exact this

theorem unreplaceVal_id {v : Str} (h : '&' ∉ v) : unreplaceVal v = v := by
  have k : ∀ pat : Str, '&' ∈ pat → ¬ HasSub pat v :=
    fun pat hpat hsub => h (hasSub_mem hsub hpat)
  rw [unreplaceVal_stages, replaceAll_id _ _ (k sentMeta (by decide)),
    replaceAll_id _ _ (k sentQuot (by decide)), replaceAll_id _ _ (k sentSpace (by decide)),
    replaceAll_id _ _ (k sentColon (by decide)), replaceAll_id _ _ (k sentPa (by decide)),
    replaceAll_id _ _ (k sentRens (by decide))]

/-! ## Round-trip machinery: `_stripspaces` on assembled strings -/

theorem wsCount_cons_ws {c : Char} (h : isPySpace c = true) (cs : Str) :
    wsCount (c :: cs) = wsCount cs + 1 := by simp [wsCount, h]

theorem wsCount_cons_not {c : Char} (h : isPySpace c = false) (cs : Str) :
    wsCount (c :: cs) = 0 := by simp [wsCount, h]

theorem stripMatch_none {p1 p2 : Option Char} {c : Char} {l : Str}
    (h1 : isPySpace c = false) (h2 : c ≠ ':') :
    stripMatch p1 p2 (c :: l) = none := by
  have hws : wsCount (c :: l) = 0 := wsCount_cons_not h1 l
  simp only [stripMatch, hws, List.drop_zero]
  rw [if_neg h2]

theorem ssGo_cons_none {pr : Option Char × Option Char} {c : Char} {cs : Str}
    (h : stripMatch pr.1 pr.2 (c :: cs) = none) :
    ssGo pr 0 (c :: cs) = c :: ssGo (shift2 pr c) 0 cs := by
  simp only [ssGo, h]

theorem ssGo_copy : ∀ (u : Str), (∀ a ∈ u, isPySpace a = false ∧ a ≠ ':') →
    ∀ (pr : Option Char × Option Char) (rest : Str),
      ssGo pr 0 (u ++ rest) = u ++ ssGo (u.foldl shift2 pr) 0 rest := by
  intro u
  induction u with
  | nil => intro _ pr rest; simp
  | cons c u' ih =>
    intro h pr rest
    have hc := h c (List.mem_cons_self c u')
    rw [List.cons_append, ssGo_cons_none (stripMatch_none hc.1 hc.2)]
    rw [ih (fun a ha => h a (List.mem_cons_of_mem c ha)) (shift2 pr c) rest]
    simp

theorem ssGo_sp (pr : Option Char × Option Char) {d : Char} (rest : Str)
    (hd1 : isPySpace d = false) (hd2 : d ≠ ':') :
    ssGo pr 0 (' ' :: d :: rest) = ' ' :: ssGo (shift2 pr ' ') 0 (d :: rest) := by
  have hm : stripMatch pr.1 pr.2 (' ' :: d :: rest) = none := by
    have h0 : wsCount (d :: rest) = 0 := wsCount_cons_not hd1 rest
    have hws : wsCount (' ' :: d :: rest) = 1 := by
      rw [wsCount_cons_ws (by decide), h0]
    simp only [stripMatch, hws, List.drop_succ_cons, List.drop_zero]
    rw [if_neg hd2]
  simp only [ssGo, hm]

theorem ssGo_joint (pr : Option Char × Option Char) {d : Char} (t rest : Str)
    (hd1 : isPySpace d = false) :
    ssGo pr 0 (' ' :: ':' :: ' ' :: (d :: (t ++ rest))) =
      ':' :: ssGo (some ':', some ' ') 0 (d :: (t ++ rest)) := by
  have h0 : wsCount (d :: (t ++ rest)) = 0 := wsCount_cons_not hd1 _
  have hm : stripMatch pr.1 pr.2 (' ' :: ':' :: ' ' :: (d :: (t ++ rest))) =
      some ([' ', ':', ' '], d :: (t ++ rest)) := by
    have hws : wsCount (' ' :: ':' :: ' ' :: (d :: (t ++ rest))) = 1 := by
      rw [wsCount_cons_ws (by decide), wsCount_cons_not (by decide)]
    have hws2 : wsCount (' ' :: (d :: (t ++ rest))) = 1 := by
      rw [wsCount_cons_ws (by decide), h0]
    simp only [stripMatch, hws, List.drop_succ_cons, List.drop_zero, hws2]
    simp
  simp only [ssGo, hm]
  rfl

/-- A simple token's rendering is non-empty and starts with a
non-whitespace, non-colon character. -/
theorem renderTok_head {tok : Tok} (h : simpleTok tok = true) :
    renderTok tok ≠ [] ∧ isPySpace ((renderTok tok).headD ' ') = false ∧
      (renderTok tok).headD ' ' ≠ ':' := by
  cases tok with
  | lit l => exact opStrings_head l (of_decide_eq_true h)
  | term f t =>
    cases f with
    | none =>
      simp only [simpleTok, Bool.and_eq_true, decide_eq_true_eq] at h
      have htp : ∀ a ∈ t, plainChar a = true := List.all_eq_true.mp h.1.2
      match t, h.1.1 with
      | a :: t', _ =>
        have ha : plainChar a = true := htp a (List.mem_cons_self a t')
        refine ⟨by simp [renderTok], ?_, ?_⟩
        · show isPySpace ((a :: t').headD ' ') = false
          simpa using plainChar_not_ws ha
        · show (a :: t').headD ' ' ≠ ':'
          simpa using plainChar_ne_of ha (by decide)
    | some v =>
      simp only [simpleTok, Bool.and_eq_true, decide_eq_true_eq] at h
      obtain ⟨⟨⟨⟨hv, hvall⟩, _⟩, _⟩, _⟩ := h
      have hvp : ∀ a ∈ v, plainChar a = true := List.all_eq_true.mp hvall
      match v, hv with
      | a :: v', _ =>
        have ha : plainChar a = true := hvp a (List.mem_cons_self a v')
        have he : renderTok (Tok.term (some (a :: v')) t) =
            a :: (v' ++ " : ".toList ++ t) := by
          simp [renderTok]
        rw [he]
        exact ⟨by simp, by simpa using plainChar_not_ws ha,
          by simpa using plainChar_ne_of ha (by decide)⟩

/-- Processing one rendered token: `ssGo` turns `renderTok` into
`renderStripped` and continues on the remainder (with some predecessor
state). -/
theorem ssGo_piece {tok : Tok} (h : simpleTok tok = true) :
    ∀ (pr : Option Char × Option Char) (rest : Str),
      ∃ pr', ssGo pr 0 (renderTok tok ++ rest) =
        renderStripped tok ++ ssGo pr' 0 rest := by
  cases tok with
  | lit l =>
    intro pr rest
    have hop : l ∈ opStrings := of_decide_eq_true h
    have hch : ∀ a ∈ l, isPySpace a = false ∧ a ≠ ':' := fun a ha =>
      ⟨(opStrings_chars l hop a ha).1, (opStrings_chars l hop a ha).2.1⟩
    exact ⟨l.foldl shift2 pr, ssGo_copy l hch pr rest⟩
  | term f t =>
    cases f with
    | none =>
      intro pr rest
      simp only [simpleTok, Bool.and_eq_true, decide_eq_true_eq] at h
      have htp : ∀ a ∈ t, plainChar a = true := List.all_eq_true.mp h.1.2
      have hch : ∀ a ∈ t, isPySpace a = false ∧ a ≠ ':' := fun a ha =>
        ⟨plainChar_not_ws (htp a ha), plainChar_ne_of (htp a ha) (by decide)⟩
      exact ⟨t.foldl shift2 pr, ssGo_copy t hch pr rest⟩
    | some v =>
      intro pr rest
      simp only [simpleTok, Bool.and_eq_true, decide_eq_true_eq] at h
      obtain ⟨⟨⟨⟨hv, hvall⟩, ht⟩, htall⟩, _⟩ := h
      rcases t with _ | ⟨d, t'⟩
      · exact absurd rfl ht
      · have hvp : ∀ a ∈ v, plainChar a = true := List.all_eq_true.mp hvall
        have htp : ∀ a ∈ d :: t', plainChar a = true := List.all_eq_true.mp htall
        have hvch : ∀ a ∈ v, isPySpace a = false ∧ a ≠ ':' := fun a ha =>
          ⟨plainChar_not_ws (hvp a ha), plainChar_ne_of (hvp a ha) (by decide)⟩
        have htch : ∀ a ∈ d :: t', isPySpace a = false ∧ a ≠ ':' := fun a ha =>
          ⟨plainChar_not_ws (htp a ha), plainChar_ne_of (htp a ha) (by decide)⟩
        have hd1 : isPySpace d = false :=
          (htch d (List.mem_cons_self d t')).1
        refine ⟨(d :: t').foldl shift2 (some ':', some ' '), ?_⟩
        have e1 : renderTok (Tok.term (some v) (d :: t')) ++ rest =
            v ++ (' ' :: ':' :: ' ' :: (d :: (t' ++ rest))) := by
          simp [renderTok, hv]
        rw [e1, ssGo_copy v hvch pr, ssGo_joint _ t' rest hd1]
        rw [show d :: (t' ++ rest) = (d :: t') ++ rest from rfl,
          ssGo_copy (d :: t') htch (some ':', some ' ') rest]
        simp [renderStripped, hv]

/-- `_stripspaces` on an assembled simple token sequence normalises every
`field : term` to `field:term` and changes nothing else. -/
theorem strip_assemble : ∀ (ts : List Tok), simpleToks ts = true →
    ∀ pr, ssGo pr 0 (joinSp (ts.map renderTok)) =
      joinSp (ts.map renderStripped) := by
  intro ts
  induction ts with
  | nil => intro _ pr; rfl
  | cons tok ts' ih =>
    intro h pr
    have h' : simpleTok tok = true ∧ ts'.all simpleTok = true := by
      have h2 : (tok :: ts').all simpleTok = true := h
      rw [List.all_cons, Bool.and_eq_true] at h2
      exact h2
    obtain ⟨hst, hts'⟩ := h'
    match ts' with
    | [] =>
      simp only [List.map_cons, List.map_nil]
      obtain ⟨pr', hpe⟩ := ssGo_piece hst pr []
      rw [joinSp, joinSp, ← List.append_nil (renderTok tok), hpe]
      simp [show ssGo pr' 0 [] = ([] : Str) from rfl]
    | tok2 :: ts'' =>
      have hst2 : simpleTok tok2 = true := by
        have h2 : (tok2 :: ts'').all simpleTok = true := hts'
        rw [List.all_cons, Bool.and_eq_true] at h2
        exact h2.1
      obtain ⟨hne2, hd2a, hd2b⟩ := renderTok_head hst2
      obtain ⟨pr', hpe⟩ := ssGo_piece hst pr
        (' ' :: joinSp ((tok2 :: ts'').map renderTok))
      have hmapc : (tok :: tok2 :: ts'').map renderTok =
          renderTok tok :: (tok2 :: ts'').map renderTok := rfl
      have hmapc' : (tok :: tok2 :: ts'').map renderStripped =
          renderStripped tok :: (tok2 :: ts'').map renderStripped := rfl
      rw [hmapc, hmapc', joinSp_cons, joinSp_cons,
        show ((tok2 :: ts'').map renderTok).isEmpty = false from rfl,
        show ((tok2 :: ts'').map renderStripped).isEmpty = false from rfl]
      simp only [Bool.false_eq_true, if_false]
      rw [hpe]
      refine congrArg (renderStripped tok ++ ·) ?_
      rcases hrt : renderTok tok2 with _ | ⟨d2, tl2⟩
      · exact absurd hrt hne2
      · rw [hrt] at hd2a hd2b
        simp only [List.headD_cons] at hd2a hd2b
        have hstart : joinSp ((tok2 :: ts'').map renderTok) =
            d2 :: (tl2 ++ (if (ts''.map renderTok).isEmpty then []
              else ' ' :: joinSp (ts''.map renderTok))) := by
          rw [show (tok2 :: ts'').map renderTok =
            renderTok tok2 :: ts''.map renderTok from rfl, joinSp_cons, hrt,
            List.cons_append]
        rw [hstart, ssGo_sp pr' _ hd2a hd2b, ← hstart]
        rw [ih hts' (shift2 pr' ' ')]

/-! ## Round-trip machinery: character inventory of assembled strings -/

theorem renderTok_chars {tok : Tok} (h : simpleTok tok = true) :
    ∀ a ∈ renderTok tok,
      a = ' ' ∨ a = ':' ∨ plainChar a = true ∨ ∃ l ∈ opStrings, a ∈ l := by
  cases tok with
  | lit l =>
    intro a ha
    exact Or.inr (Or.inr (Or.inr ⟨l, of_decide_eq_true h, ha⟩))
  | term f t =>
    cases f with
    | none =>
      intro a ha
      simp only [simpleTok, Bool.and_eq_true, decide_eq_true_eq] at h
      have ha' : a ∈ t := by simpa [renderTok] using ha
      exact Or.inr (Or.inr (Or.inl (List.all_eq_true.mp h.1.2 a ha')))
    | some v =>
      intro a ha
      simp only [simpleTok, Bool.and_eq_true, decide_eq_true_eq] at h
      obtain ⟨⟨⟨⟨hv, hvall⟩, ht⟩, htall⟩, _⟩ := h
      simp only [renderTok, if_neg hv, List.append_assoc, List.mem_append,
        List.mem_cons, List.not_mem_nil, or_false] at ha
      rcases ha with hav | (rfl | rfl | rfl) | hat
      · exact Or.inr (Or.inr (Or.inl (List.all_eq_true.mp hvall a hav)))
      · exact Or.inl rfl
      · exact Or.inr (Or.inl rfl)
      · exact Or.inl rfl
      · exact Or.inr (Or.inr (Or.inl (List.all_eq_true.mp htall a hat)))

theorem renderStripped_chars {tok : Tok} (h : simpleTok tok = true) :
    ∀ a ∈ renderStripped tok,
      a = ':' ∨ plainChar a = true ∨ ∃ l ∈ opStrings, a ∈ l := by
  cases tok with
  | lit l =>
    intro a ha
    exact Or.inr (Or.inr ⟨l, of_decide_eq_true h, ha⟩)
  | term f t =>
    cases f with
    | none =>
      intro a ha
      simp only [simpleTok, Bool.and_eq_true, decide_eq_true_eq] at h
      have ha' : a ∈ t := by simpa [renderStripped] using ha
      exact Or.inr (Or.inl (List.all_eq_true.mp h.1.2 a ha'))
    | some v =>
      intro a ha
      simp only [simpleTok, Bool.and_eq_true, decide_eq_true_eq] at h
      obtain ⟨⟨⟨⟨hv, hvall⟩, ht⟩, htall⟩, _⟩ := h
      simp only [renderStripped, if_neg hv, List.mem_append, List.mem_cons] at ha
      rcases ha with hav | (rfl | hat)
      · exact Or.inr (Or.inl (List.all_eq_true.mp hvall a hav))
      · exact Or.inl rfl
      · exact Or.inr (Or.inl (List.all_eq_true.mp htall a hat))

theorem forb_char {a : Char}
    (h : a = ' ' ∨ a = ':' ∨ plainChar a = true ∨ ∃ l ∈ opStrings, a ∈ l) :
    a ∉ (['\\', '"', '\x7b', '[', '/', '(', ')'] : List Char) := by
  rcases h with rfl | rfl | hp | ⟨l, hl, hal⟩
  · decide
  · decide
  · intro hmem
    simp only [List.mem_cons, List.not_mem_nil, or_false] at hmem
    rcases hmem with rfl | rfl | rfl | rfl | rfl | rfl | rfl <;>
      exact absurd hp (by decide)
  · exact (opStrings_chars l hl a hal).2.2

theorem join_chars {ts : List Tok} (h : simpleToks ts = true) (f : Tok → Str)
    (hf : ∀ tok, simpleTok tok = true → ∀ a ∈ f tok,
      a = ' ' ∨ a = ':' ∨ plainChar a = true ∨ ∃ l ∈ opStrings, a ∈ l) :
    ∀ a ∈ joinSp (ts.map f),
      a ∉ (['\\', '"', '\x7b', '[', '/', '(', ')'] : List Char) := by
  intro a ha
  rcases joinSp_mem _ a ha with rfl | ⟨p, hp, hap⟩
  · decide
  · obtain ⟨tok, htok, rfl⟩ := List.mem_map.mp hp
    exact forb_char (hf tok (List.all_eq_true.mp h tok htok) a hap)

/-! ## Round-trip machinery: re-splitting the stripped string -/

theorem splitWsAux_nonws : ∀ (u : Str), (∀ a ∈ u, isPySpace a = false) →
    ∀ (cur rest : Str), splitWsAux cur (u ++ rest) = splitWsAux (u.reverse ++ cur) rest := by
  intro u
  induction u with
  | nil => intro _ cur rest; simp
  | cons c u' ih =>
    intro h cur rest
    rw [List.cons_append]
    simp only [splitWsAux, h c (List.mem_cons_self c u'), Bool.false_eq_true, if_false]
    rw [ih (fun a ha => h a (List.mem_cons_of_mem c ha)) (c :: cur) rest]
    simp

theorem splitWs_join : ∀ (ps : List Str),
    (∀ p ∈ ps, p ≠ [] ∧ ∀ a ∈ p, isPySpace a = false) →
    splitWs (joinSp ps) = ps := by
  intro ps
  induction ps with
  | nil => intro _; rfl
  | cons p ps ih =>
    intro h
    obtain ⟨hp, hpws⟩ := h p (List.mem_cons_self p ps)
    match ps with
    | [] =>
      show splitWsAux [] (joinSp [p]) = [p]
      rw [joinSp, ← List.append_nil p, splitWsAux_nonws p hpws [] []]
      rw [List.append_nil, List.append_nil]
      simp only [splitWsAux]
      rw [if_neg (by simpa using hp)]
      simp
    | q :: ps' =>
      show splitWsAux [] (joinSp (p :: q :: ps')) = p :: q :: ps'
      rw [joinSp_cons,
        show (q :: ps').isEmpty = false from rfl]
      simp only [Bool.false_eq_true, if_false]
      rw [splitWsAux_nonws p hpws [] (' ' :: joinSp (q :: ps')), List.append_nil]
      simp only [splitWsAux]
      rw [if_pos (show isPySpace ' ' = true from rfl),
        if_neg (by simpa using hp)]
      rw [List.reverse_reverse]
      exact congrArg (p :: ·) (ih (fun r hr => h r (List.mem_cons_of_mem p hr)))

/-! ## Round-trip machinery: re-classifying the stripped tokens -/

theorem pySplitUC_nocolon : ∀ (t : Str), (∀ a ∈ t, a ≠ ':') →
    ∀ (prev : Option Char), pySplitUC prev t = [t] := by
  intro t
  induction t with
  | nil => intro _ prev; rfl
  | cons c cs ih =>
    intro h prev
    have hc : ¬ (c = ':' ∧ prev ≠ some '\\') := fun hcc =>
      h c (List.mem_cons_self c cs) hcc.1
    simp only [pySplitUC, if_neg hc]
    rw [ih (fun a ha => h a (List.mem_cons_of_mem c ha)) (some c)]

theorem pySplitUC_split : ∀ (v : Str), (∀ a ∈ v, a ≠ ':' ∧ a ≠ '\\') →
    ∀ (t : Str), (∀ a ∈ t, a ≠ ':') →
    ∀ (prev : Option Char), prev ≠ some '\\' →
    pySplitUC prev (v ++ ':' :: t) = [v, t] := by
  intro v
  induction v with
  | nil =>
    intro _ t ht prev hprev
    rw [List.nil_append]
    simp only [pySplitUC]
    rw [pySplitUC_nocolon t ht (some ':')]
    rw [if_pos (And.intro trivial hprev)]
  | cons c v' ih =>
    intro h t ht prev hprev
    have hc := h c (List.mem_cons_self c v')
    rw [List.cons_append]
    have hcc : ¬ (c = ':' ∧ prev ≠ some '\\') := fun hx => hc.1 hx.1
    simp only [pySplitUC, if_neg hcc]
    rw [ih (fun a ha => h a (List.mem_cons_of_mem c ha)) t ht (some c)
      (by intro he; exact hc.2 (by injection he))]

theorem termdictOne?_op {l : Str} (h : l ∈ opStrings) :
    termdictOne? l = some (Tok.lit l) := by
  rw [termdictOne?, if_pos (opStrings_nonterm l h)]

theorem termdictOne?_plain {t : Str} (htp : ∀ a ∈ t, a ≠ ':')
    (hnb : nontermB t = false) : termdictOne? t = some (Tok.term none t) := by
  rw [termdictOne?, if_neg (by simp [hnb]), pySplitUC_nocolon t htp none]

theorem termdictOne?_fieldterm {v t : Str}
    (hvc : ∀ a ∈ v, a ≠ ':' ∧ a ≠ '\\') (htc : ∀ a ∈ t, a ≠ ':')
    (hnb : nontermB (v ++ ':' :: t) = false) :
    termdictOne? (v ++ ':' :: t) = some (Tok.term (some v) t) := by
  rw [termdictOne?, if_neg (by simp [hnb]),
    pySplitUC_split v hvc t htc none (by simp)]

theorem termdictOne?_stripped {tok : Tok} (h : simpleTok tok = true) :
    termdictOne? (renderStripped tok) = some tok := by
  cases tok with
  | lit l => exact termdictOne?_op (of_decide_eq_true h)
  | term f t =>
    cases f with
    | none =>
      simp only [simpleTok, Bool.and_eq_true, decide_eq_true_eq] at h
      obtain ⟨⟨ht, htall⟩, hnb⟩ := h
      have htp : ∀ a ∈ t, plainChar a = true := List.all_eq_true.mp htall
      show termdictOne? t = some (Tok.term none t)
      exact termdictOne?_plain
        (fun a ha => plainChar_ne_of (htp a ha) (by decide))
        (by rw [Bool.not_eq_true'] at hnb; exact hnb)
    | some v =>
      simp only [simpleTok, Bool.and_eq_true, decide_eq_true_eq] at h
      obtain ⟨⟨⟨⟨hv, hvall⟩, ht⟩, htall⟩, hnb⟩ := h
      have hvp : ∀ a ∈ v, plainChar a = true := List.all_eq_true.mp hvall
      have htp : ∀ a ∈ t, plainChar a = true := List.all_eq_true.mp htall
      show termdictOne? (if v = [] then t else v ++ ':' :: t) = some (Tok.term (some v) t)
      rw [if_neg hv]
      exact termdictOne?_fieldterm
        (fun a ha => ⟨plainChar_ne_of (hvp a ha) (by decide),
          plainChar_ne_of (hvp a ha) (by decide)⟩)
        (fun a ha => plainChar_ne_of (htp a ha) (by decide))
        (by rw [Bool.not_eq_true'] at hnb; exact hnb)

theorem termdicts_stripped : ∀ (ts : List Tok), simpleToks ts = true →
    termdicts? (ts.map renderStripped) = some ts := by
  intro ts
  induction ts with
  | nil => intro _; rfl
  | cons tok ts' ih =>
    intro h
    have h' : simpleTok tok = true ∧ ts'.all simpleTok = true := by
      have h2 : (tok :: ts').all simpleTok = true := h
      rw [List.all_cons, Bool.and_eq_true] at h2
      exact h2
    show ((tok :: ts').map renderStripped).mapM termdictOne? = some (tok :: ts')
    rw [List.map_cons, List.mapM_cons, termdictOne?_stripped h'.1]
    have := ih h'.2
    rw [show termdicts? (ts'.map renderStripped) =
      (ts'.map renderStripped).mapM termdictOne? from rfl] at this
    rw [this]
    rfl

/-! ## Round-trip machinery: the Unescaper is inert on plain values -/

theorem unreplaceTok_id {tok : Tok} (h : simpleTok tok = true) :
    unreplaceTok tok = tok := by
  cases tok with
  | lit l => rfl
  | term f t =>
    cases f with
    | none =>
      simp only [simpleTok, Bool.and_eq_true, decide_eq_true_eq] at h
      have htp : ∀ a ∈ t, plainChar a = true := List.all_eq_true.mp h.1.2
      simp only [unreplaceTok, Option.map_none']
      rw [if_neg h.1.1, unreplaceVal_id
        (fun hmem => plainChar_ne_of (htp '&' hmem) (by decide) rfl)]
    | some v =>
      simp only [simpleTok, Bool.and_eq_true, decide_eq_true_eq] at h
      obtain ⟨⟨⟨⟨hv, hvall⟩, ht⟩, htall⟩, _⟩ := h
      have hvp : ∀ a ∈ v, plainChar a = true := List.all_eq_true.mp hvall
      have htp : ∀ a ∈ t, plainChar a = true := List.all_eq_true.mp htall
      simp only [unreplaceTok, Option.map_some']
      rw [if_neg hv, if_neg ht,
        unreplaceVal_id (fun hmem => plainChar_ne_of (hvp '&' hmem) (by decide) rfl),
        unreplaceVal_id (fun hmem => plainChar_ne_of (htp '&' hmem) (by decide) rfl)]

theorem unreplaceToks_id : ∀ (ts : List Tok), simpleToks ts = true →
    unreplaceToks ts = ts := by
  intro ts
  induction ts with
  | nil => intro _; rfl
  | cons tok ts' ih =>
    intro h
    have h' : simpleTok tok = true ∧ ts'.all simpleTok = true := by
      have h2 : (tok :: ts').all simpleTok = true := h
      rw [List.all_cons, Bool.and_eq_true] at h2
      exact h2
    show unreplaceTok tok :: ts'.map unreplaceTok = tok :: ts'
    rw [unreplaceTok_id h'.1]
    exact congrArg (tok :: ·) (ih h'.2)

/-! ## The round trip on simple token sequences -/

theorem simple_roundtrip {ts : List Tok} (h : simpleToks ts = true) :
    deparse? (assemble ts) = some ts := by
  have hchars : ∀ a ∈ assemble ts,
      a ∉ (['\\', '"', '\x7b', '[', '/', '(', ')'] : List Char) :=
    join_chars h renderTok (fun tok hst => renderTok_chars hst)
  have hchars' : ∀ a ∈ joinSp (ts.map renderStripped),
      a ∉ (['\\', '"', '\x7b', '[', '/', '(', ')'] : List Char) :=
    join_chars h renderStripped (fun tok hst a ha =>
      Or.inr (renderStripped_chars hst a ha))
  have h1 : replaceMetaescape (assemble ts) = assemble ts :=
    replaceAll_id _ _ (fun hsub => hchars '\\' (hasSub_mem hsub (by decide)) (by decide))
  have h2 : replaceEscQuotes (assemble ts) = assemble ts :=
    replaceAll_id _ _ (fun hsub => hchars '\\' (hasSub_mem hsub (by decide)) (by decide))
  have h3 : repRanges (assemble ts) = assemble ts := repRanges_id hchars
  have h4 : addParens (assemble ts) = assemble ts := by
    apply addParens_id
    intro a ha
    constructor
    · intro he; exact hchars a ha (by rw [he]; decide)
    · intro he; exact hchars a ha (by rw [he]; decide)
  have h5 : stripspaces (assemble ts) = joinSp (ts.map renderStripped) :=
    strip_assemble ts h (none, none)
  have h6 : repSubqueries (joinSp (ts.map renderStripped)) =
      joinSp (ts.map renderStripped) :=
    repSubqueries_id (fun hmem => hchars' '(' hmem (by decide))
  have h7 : splitWs (joinSp (ts.map renderStripped)) = ts.map renderStripped := by
    apply splitWs_join
    intro p hp
    obtain ⟨tok, htok, rfl⟩ := List.mem_map.mp hp
    have hst : simpleTok tok = true := List.all_eq_true.mp h tok htok
    constructor
    · cases tok with
      | lit l =>
        have := opStrings_head l (of_decide_eq_true hst)
        simpa [renderStripped] using this.1
      | term f t =>
        cases f with
        | none =>
          simp only [simpleTok, Bool.and_eq_true, decide_eq_true_eq] at hst
          simpa [renderStripped] using hst.1.1
        | some v =>
          simp only [simpleTok, Bool.and_eq_true, decide_eq_true_eq] at hst
          obtain ⟨⟨⟨⟨hv, _⟩, ht⟩, _⟩, _⟩ := hst
          simp only [renderStripped, if_neg hv]
          simp
    · intro a ha
      rcases renderStripped_chars hst a ha with rfl | hp' | ⟨l, hl, hal⟩
      · decide
      · exact plainChar_not_ws hp'
      · exact (opStrings_chars l hl a hal).1
  have h8 : termdicts? (ts.map renderStripped) = some ts := termdicts_stripped ts h
  rw [deparse?, parseQ?, parsePipeline, h1, h2, h3, h4, h5, h6, h7, h8,
    Option.map_some', unreplaceToks_id ts h]

/-! ## Claim theorems -/

set_option maxRecDepth 100000

/-- Claim C2: `deparse` on the documented example
`'author: Meier tags:(water OR fire) "open access"'` produces exactly the
three term tokens `(author, Meier)`, `(tags, ( water OR fire ))` and the
global quoted term, in this order. -/
theorem C2_documented_example :
    deparse? "author: Meier tags:(water OR fire) \"open access\"".toList =
      some [Tok.term (some "author".toList) "Meier".toList,
            Tok.term (some "tags".toList) "( water OR fire )".toList,
            Tok.term none "\"open access\"".toList] := by decide

/-- Claim C3: `deparse` succeeds on every input string: no stage of the
pipeline can fail, in particular the classifier's `parts[0]`/`parts[1]`
accesses are always in range because splitting never returns an empty
list. -/
theorem C3_deparse_total (q : String) : (deparse? q.toList).isSome = true := by
  have hp : (parseQ? q.toList).isSome = true := by
    rw [parseQ?, termdicts?]
    exact mapM_isSome _ _ (fun t _ => termdictOne?_isSome t)
  rw [deparse?]
  match hm : parseQ? q.toList with
  | none => rw [hm] at hp; simp at hp
  | some ts => simp

/-- Claim C4, counterexample: the raw token `ANDy` is not one of the eight
operator strings, yet `_termdicts` classifies it as a `Literal` (the
`nonterms` regex is matched with `re.match`, which anchors at the start
only), refuting the claimed "if and only if the entire token is exactly
one of the eight". -/
theorem C4_counterexample :
    termdicts? ["ANDy".toList] = some [Tok.lit "ANDy".toList] ∧
      "ANDy".toList ∉ ops8 := by decide

/-- Claim C4, amended: a raw token is classified as a `Literal` entry iff
one of the eight case-sensitive strings `AND`, `OR`, `NOT`, `!`, `&&`,
`||`, `(`, `)` is a prefix of the token (not necessarily the entire
token); every other raw token becomes a `Term` entry. -/
theorem C4_literal_iff_op_starts (t : Str) :
    termdictOne? t = some (Tok.lit t) ↔ ∃ p ∈ ops8, ∃ r, t = p ++ r := by
  constructor
  · intro h
    by_cases hb : nontermB t = true
    · simp only [nontermB, List.any_eq_true] at hb
      obtain ⟨p, hp, hpre⟩ := hb
      obtain ⟨r, hr⟩ := (pfx_iff p t).1 hpre
      exact ⟨p, hp, r, hr⟩
    · rw [termdictOne?, if_neg hb] at h
      match hm : pySplitUC none t with
      | [] => rw [hm] at h; exact absurd h (by simp)
      | [p] => rw [hm] at h; simp at h
      | p0 :: p1 :: ps => rw [hm] at h; simp at h
  · rintro ⟨p, hp, r, rfl⟩
    have hb : nontermB (p ++ r) = true := by
      simp only [nontermB, List.any_eq_true]
      exact ⟨p, hp, (pfx_iff p (p ++ r)).2 ⟨r, rfl⟩⟩
    rw [termdictOne?, if_pos hb]

/-- Claim C5, counterexample: on the token `a:b:c` (two unescaped colons)
the produced term value is `b`, not the claimed entire text `b:c` after
the first colon — the text after the second unescaped colon is dropped
(`parts[1]` of the split). -/
theorem C5_counterexample :
    deparse? "a:b:c".toList = some [Tok.term (some "a".toList) "b".toList] ∧
      "b".toList ≠ "b:c".toList := by decide

/-- Claim C5, amended: for a term token with at least one unescaped colon,
the field is the text before the first unescaped colon, and the term is
the text after the first unescaped colon truncated at the next unescaped
colon (or the end of the token); text from a second unescaped colon on is
discarded. -/
theorem C5_field_term_split (t : Str) (h1 : nontermB t = false)
    (h2 : hasUC none t = true) :
    termdictOne? t = some (Tok.term (some (ucBefore none t)) (ucSecond t)) := by
  rw [termdictOne?, if_neg (by simp [h1]), pySplitUC_eq, if_pos h2]
  rw [pySplitUC_eq (some ':') (ucAfter none t)]
  by_cases h3 : hasUC (some ':') (ucAfter none t) = true
  · rw [if_pos h3]
    simp [ucSecond, h3]
  · rw [if_neg h3]
    simp only [ucSecond, h3, Bool.false_eq_true, if_false]

theorem C5_field_term_split_witness :
    nontermB "a:b:c".toList = false ∧ hasUC none "a:b:c".toList = true ∧
      termdictOne? "a:b:c".toList =
        some (Tok.term (some (ucBefore none "a:b:c".toList))
          (ucSecond "a:b:c".toList)) :=
  ⟨by decide, by decide, C5_field_term_split "a:b:c".toList (by decide) (by decide)⟩

/-- Claim C6, counterexample: on input `AND:(a b)` the whole token is
classified as a `Literal` (it starts with `AND`), so the Unescaper skips
it and the space sentinels inserted by the subquery stage survive into
the `deparse` output, refuting "no internal sentinel marker in any
Literal text". -/
theorem C6_counterexample :
    deparse? "AND:(a b)".toList =
      some [Tok.lit "AND:(_&_SPACE_&_a_&_SPACE_&_b_&_SPACE_&_)".toList] ∧
      HasSub sentSpace "AND:(_&_SPACE_&_a_&_SPACE_&_b_&_SPACE_&_)".toList :=
  ⟨by decide, ⟨"AND:(".toList, "a_&_SPACE_&_b_&_SPACE_&_)".toList, by decide⟩⟩

/-- Claim C6, amended: no sentinel marker ever occurs in the `field` or
`term` value of a `Term` entry of the `deparse` output (the Unescaper
removes them from every non-empty value); `Literal` entries, however, can
retain sentinels, as the counterexample shows. -/
theorem C6_term_values_sentinel_free (q : Str) (ts : List Tok)
    (h : deparse? q = some ts) :
    ∀ f t, Tok.term f t ∈ ts → ∀ pr ∈ revPairs,
      ¬ HasSub pr.1 t ∧ ∀ v, f = some v → ¬ HasSub pr.1 v := by
  rw [deparse?] at h
  obtain ⟨ts0, hts0, hmap⟩ := Option.map_eq_some'.mp h
  subst hmap
  intro f t hmem pr hpr
  obtain ⟨tok0, htok0, heq⟩ := List.mem_map.mp hmem
  cases tok0 with
  | lit s => simp [unreplaceTok] at heq
  | term f0 t0 =>
    simp only [unreplaceTok, Tok.term.injEq] at heq
    obtain ⟨hf, ht⟩ := heq
    constructor
    · rw [← ht]
      by_cases ht0 : t0 = []
      · rw [if_pos ht0]
        intro hsub
        exact revPairs_fst_ne_nil pr hpr (hasSub_nil (ht0 ▸ hsub))
      · rw [if_neg ht0]
        exact no_sent_unreplaceVal pr hpr t0
    · intro v hv
      rw [← hf] at hv
      obtain ⟨v0, hv0, hgv⟩ := Option.map_eq_some'.mp hv
      rw [← hgv]
      by_cases hv0' : v0 = []
      · rw [if_pos hv0']
        intro hsub
        exact revPairs_fst_ne_nil pr hpr (hasSub_nil (hv0' ▸ hsub))
      · rw [if_neg hv0']
        exact no_sent_unreplaceVal pr hpr v0

theorem C6_term_values_sentinel_free_witness :
    ¬ HasSub sentSpace "b".toList ∧
      ∀ v, (some "a".toList : Option Str) = some v → ¬ HasSub sentSpace v :=
  C6_term_values_sentinel_free "a:b".toList
    [Tok.term (some "a".toList) "b".toList] (by decide)
    (some "a".toList) "b".toList (by decide) (sentSpace, [' ']) (by decide)

/-- Claim C7: the Unescaper is idempotent — the fixed reverse-substitution
sequence (metaesc, quote, whitespace, colon, open-paren, close-paren)
applied twice to any value equals one application, and hence `_unreplace`
applied twice to any token list equals one application. -/
theorem C7_unescaper_idempotent :
    (∀ v : Str, unreplaceVal (unreplaceVal v) = unreplaceVal v) ∧
      (∀ ts : List Tok, unreplaceToks (unreplaceToks ts) = unreplaceToks ts) := by
  refine ⟨unreplaceVal_idem, ?_⟩
  intro ts
  induction ts with
  | nil => rfl
  | cons t ts ih =>
    simp only [unreplaceToks, List.map_cons] at ih ⊢
    rw [unreplaceTok_idem t, ih]

/-- Claim C8: the code contradicts the claim — `_stripspaces` normalises
the whitespace around a colon that IS immediately preceded by a (single)
backslash: on `a\: b` it deletes the space, producing `a\:b`.  Its raw
string look-behind `(?<!\\\\)` protects only a colon preceded by two
literal backslashes, as the second conjunct shows, whereas every other
"unescaped" test in the module uses a one-backslash look-behind. -/
theorem C8_stripspaces_escaped_colon :
    stripspaces "a\\: b".toList = "a\\:b".toList ∧
      stripspaces "a\\\\: b".toList = "a\\\\: b".toList := by decide

/-- Claim C9, counterexample: `deparse(':foo')` yields a `Term` whose
field is the empty string (the split on the leading unescaped colon has
an empty first part), refuting "never produces a Term whose field is the
empty string". -/
theorem C9_counterexample :
    deparse? ":foo".toList = some [Tok.term (some []) "foo".toList] := by decide

/-- Claim C9, amended: a `Term` with an empty-string field can only arise
from a raw token that begins with a colon; whenever the `deparse` output
contains a `Term` with field `''`, some raw token of the split,
preprocessed query starts with `':'`. -/
theorem C9_empty_field_only_from_colon_start (q : Str) (ts : List Tok)
    (h : deparse? q = some ts) (t : Str)
    (hmem : Tok.term (some []) t ∈ ts) :
    ∃ rt ∈ splitWs (parsePipeline q), rt.head? = some ':' := by
  rw [deparse?] at h
  obtain ⟨ts0, hts0, hmap⟩ := Option.map_eq_some'.mp h
  subst hmap
  obtain ⟨tok0, htok0, heq⟩ := List.mem_map.mp hmem
  cases tok0 with
  | lit s => simp [unreplaceTok] at heq
  | term f0 t0 =>
    simp only [unreplaceTok, Tok.term.injEq] at heq
    obtain ⟨hf, ht⟩ := heq
    have hf0 : f0 = some [] := by
      obtain ⟨v0, hv0, hgv⟩ := Option.map_eq_some'.mp hf
      by_cases hv0' : v0 = []
      · rw [hv0'] at hv0; exact hv0
      · rw [if_neg hv0'] at hgv
        exact absurd hgv (unreplaceVal_ne_nil hv0')
    subst hf0
    rw [parseQ?, termdicts?] at hts0
    obtain ⟨rt, hrt, hrteq⟩ := mapM_mem _ _ ts0 hts0 _ htok0
    refine ⟨rt, hrt, ?_⟩
    rw [termdictOne?] at hrteq
    by_cases hb : nontermB rt = true
    · rw [if_pos hb] at hrteq; simp at hrteq
    · rw [if_neg hb, pySplitUC_eq] at hrteq
      by_cases huc : hasUC none rt = true
      · rw [if_pos huc] at hrteq
        match hrest : pySplitUC (some ':') (ucAfter none rt) with
        | [] => exact absurd hrest (pySplitUC_ne_nil _ _)
        | r1 :: rs =>
          rw [hrest] at hrteq
          simp only [Option.some.injEq, Tok.term.injEq, Option.some.injEq] at hrteq
          have hbefore : ucBefore none rt = [] := hrteq.1
          match rt, huc with
          | c :: cs, huc =>
            by_cases hc : c = ':' ∧ (none : Option Char) ≠ some '\\'
            · simp [hc.1]
            · rw [ucBefore, if_neg hc] at hbefore
              simp at hbefore
      · rw [if_neg huc] at hrteq
        simp at hrteq

theorem C9_empty_field_only_from_colon_start_witness :
    ∃ rt ∈ splitWs (parsePipeline ":foo".toList), rt.head? = some ':' :=
  C9_empty_field_only_from_colon_start ":foo".toList
    [Tok.term (some []) "foo".toList] (by decide) "foo".toList (by decide)

/-- Claim C10: `assemble` does not modify its argument — modelling the
loop with the token list threaded through as state, the list left behind
is the input list itself (same length, order, and contents), while the
joined pieces are exactly the `assemble` result. -/
theorem C10_assemble_preserves_input (ts : List Tok) :
    (assembleLoop ts).2 = ts ∧ joinSp (assembleLoop ts).1 = assemble ts := by
  have h : ∀ ts : List Tok,
      (assembleLoop ts).1 = ts.map renderTok ∧ (assembleLoop ts).2 = ts := by
    intro ts
    induction ts with
    | nil => exact ⟨rfl, rfl⟩
    | cons t ts ih => simp [assembleLoop, ih.1, ih.2]
  exact ⟨(h ts).2, by rw [(h ts).1]; rfl⟩

/-- Claim C1, counterexample: for `q = 'tags:(water OR fire)'`,
re-parsing the assembled output does not reproduce the tokens of
`deparse(q)` — the group term comes back as `(  water OR fire  )` with
doubled interior spaces (paren-spacing is applied again on re-parse), so
the field/term values are not identical. -/
theorem C1_counterexample :
    deparse? (assemble ((deparse? "tags:(water OR fire)".toList).getD [])) ≠
      deparse? "tags:(water OR fire)".toList := by decide

/-- Claim C1, amended: the round trip is exact on the simple fragment —
whenever `deparse q` yields only operator literals and plain
field-qualified or global terms (no parentheses, quotes, ranges,
backslashes, sentinel-alphabet characters, and no token that starts like
an operator), re-parsing `assemble (deparse q)` returns exactly the
tokens of `deparse q`.  In general only this fragment is stable: term
values of parenthesised group terms gain interior whitespace on
re-parsing, as the counterexample shows. -/
theorem C1_roundtrip_simple (q : Str) (ts : List Tok)
    (_h1 : deparse? q = some ts) (h2 : simpleToks ts = true) :
    deparse? (assemble ts) = some ts :=
  simple_roundtrip h2

theorem C1_roundtrip_simple_witness :
    deparse? "author:Meier x".toList =
      some [Tok.term (some "author".toList) "Meier".toList,
            Tok.term none "x".toList] ∧
    simpleToks [Tok.term (some "author".toList) "Meier".toList,
      Tok.term none "x".toList] = true ∧
    deparse? (assemble [Tok.term (some "author".toList) "Meier".toList,
      Tok.term none "x".toList]) =
      some [Tok.term (some "author".toList) "Meier".toList,
            Tok.term none "x".toList] :=
  ⟨by decide, by decide,
    C1_roundtrip_simple "author:Meier x".toList _ (by decide) (by decide)⟩

end Lucparser
